import Mathlib

/-! Pdf-merger: page-range codec, slot collection and merge loop of `app.js`

A shallow embedding of the state-handling code of `src/app.js`.

Conventions of the embedding:

* a JavaScript string is a `List Char`;
* a JavaScript number that holds an integer is an `Int` (exact while the value
  stays inside the range where a double is an exact integer and prints in plain
  decimal); list positions are `Nat`;
* a JavaScript `Set` of numbers is the list of its members in insertion order,
  without repetition;
* the DOM is not part of the state: a function that only writes to the page is
  represented by the value it writes.
-/

namespace PdfMerger

/-! ## Strings -/

/-- White space and line terminators of ECMAScript, the characters removed by
`String.prototype.trim` and skipped by `parseInt`. -/
def isWhiteSpace (c : Char) : Bool :=
  let n := c.toNat
  n = 0x09 || n = 0x0A || n = 0x0B || n = 0x0C || n = 0x0D || n = 0x20 ||
  n = 0xA0 || n = 0x1680 || (0x2000 ≤ n && n ≤ 0x200A) || n = 0x2028 ||
  n = 0x2029 || n = 0x202F || n = 0x205F || n = 0x3000 || n = 0xFEFF

/-- Leading white space removed. -/
def trimStart (s : List Char) : List Char := s.dropWhile isWhiteSpace

/-- Trailing white space removed. -/
def trimEnd (s : List Char) : List Char := (s.reverse.dropWhile isWhiteSpace).reverse

/-- The method `String.prototype.trim`. -/
def trim (s : List Char) : List Char := trimEnd (trimStart s)

/-- The method `String.prototype.split` with a one-character separator. -/
def split (sep : Char) : List Char → List (List Char)
  | [] => [[]]
  | c :: cs =>
    if c = sep then [] :: split sep cs
    else
      match split sep cs with
      | [] => [[c]]
      | p :: ps => (c :: p) :: ps

/-- The method `Array.prototype.join`. -/
def join (sep : List Char) : List (List Char) → List Char
  | [] => []
  | [x] => x
  | x :: y :: rest => x ++ sep ++ join sep (y :: rest)

/-! ## Numbers and text -/

/-- Value of a character as a digit in some radix up to 36, if it is one. -/
def digitValue (c : Char) : Option Nat :=
  let n := c.toNat
  if 48 ≤ n ∧ n ≤ 57 then some (n - 48)
  else if 97 ≤ n ∧ n ≤ 122 then some (n - 97 + 10)
  else if 65 ≤ n ∧ n ≤ 90 then some (n - 65 + 10)
  else none

/-- Whether `c` is a digit of radix `R`. -/
def isRadixDigit (R : Nat) (c : Char) : Bool :=
  match digitValue c with
  | some v => decide (v < R)
  | none => false

/-- Value of a string of radix-`R` digits. -/
def digitsToNat (R : Nat) (Z : List Char) : Nat :=
  Z.foldl (fun acc c => acc * R + (digitValue c).getD 0) 0

/-- The global function `parseInt` called with one argument: leading white space
is skipped, a sign is read, a `0x`/`0X` prefix selects radix 16 (otherwise 10),
and the longest run of digits is converted; `none` stands for `NaN`. -/
def parseInt (s : List Char) : Option Int :=
  let S := trimStart s
  let sign : Int := match S with
    | '-' :: _ => -1
    | _ => 1
  let S := match S with
    | '+' :: r => r
    | '-' :: r => r
    | _ => S
  let RS : Nat × List Char := match S with
    | '0' :: 'x' :: r => (16, r)
    | '0' :: 'X' :: r => (16, r)
    | _ => (10, S)
  let Z := RS.2.takeWhile (isRadixDigit RS.1)
  if Z.isEmpty then none else some (sign * (digitsToNat RS.1 Z : Int))

/-- Decimal digits of a natural number, most significant first; `fuel` bounds
the number of digits. -/
def natDigits : Nat → Nat → List Char
  | 0, _ => []
  | fuel + 1, n =>
    if n < 10 then [Nat.digitChar n]
    else natDigits fuel (n / 10) ++ [Nat.digitChar (n % 10)]

/-- Whether `c` is one of the characters `0` to `9`. -/
def isDecDigit (c : Char) : Bool := decide (48 ≤ c.toNat) && decide (c.toNat ≤ 57)

/-- Text of an integer as a template literal prints it. -/
def numToString (n : Int) : List Char :=
  if n < 0 then '-' :: natDigits (n.natAbs + 1) n.natAbs
  else natDigits (n.natAbs + 1) n.natAbs

/-! ## Sets of page numbers -/

/-- The method `Set.prototype.add`. -/
def setAdd (s : List Int) (x : Int) : List Int :=
  if x ∈ s then s else s ++ [x]

/-- The method `Set.prototype.delete`. -/
def setDelete (s : List Int) (x : Int) : List Int := s.erase x

/-- The call `Array.from(set).sort((a, b) => a - b)`. -/
def sortAscending (s : List Int) : List Int := s.insertionSort (· ≤ ·)

/-- The values taken by `i` in `for (let i = lo; i <= hi; i++)`. -/
def forRange (lo hi : Int) : List Int :=
  (List.range (hi + 1 - lo).toNat).map (fun (k : Nat) => lo + (k : Int))

/-! ## Page-range codec -/

/-- One iteration of the loop over `parts` in `parsePageRange`. -/
def parsePart (totalPages : Int) (pages : List Int) (part : List Char) : List Int :=
  let trimmed := trim part
  if trimmed.isEmpty then pages
  else if '-' ∈ trimmed then
    match (split '-' trimmed).map (fun s => parseInt (trim s)) with
    | some start :: some end_ :: _ =>
      (forRange (max 1 start) (min totalPages end_)).foldl setAdd pages
    | _ => pages
  else
    match parseInt trimmed with
    | some pageNum =>
      if pageNum ≥ 1 ∧ pageNum ≤ totalPages then setAdd pages pageNum else pages
    | none => pages

/-- The function `parsePageRange(input, totalPages)`. -/
def parsePageRange (input : List Char) (totalPages : Int) : List Int :=
  let parts := split ',' input
  let pages := parts.foldl (parsePart totalPages) []
  sortAscending pages

/-- The text pushed onto `ranges` for a finished run. -/
def rangeText (start end_ : Int) : List Char :=
  if start = end_ then numToString start
  else numToString start ++ '-' :: numToString end_

/-- The loop of `updatePageRangeInput` over `sorted[1..]` followed by the final
push. -/
def collectRanges : List Int → Int → Int → List (List Char) → List (List Char)
  | [], start, end_, ranges => ranges ++ [rangeText start end_]
  | x :: rest, start, end_, ranges =>
    if x = end_ + 1 then collectRanges rest start x ranges
    else collectRanges rest x x (ranges ++ [rangeText start end_])

/-- The value that `updatePageRangeInput` writes into the range field of a slot
whose selection is `selectedPages`. -/
def updatePageRangeInput (selectedPages : List Int) : List Char :=
  if selectedPages.length = 0 then []
  else
    match sortAscending selectedPages with
    | [] => []
    | first :: rest => join [',', ' '] (collectRanges rest first first [])

/-! ## Readable and unreadable segments -/

/-- Whether `s` is a non-empty string of decimal digits. -/
def isDigitString (s : List Char) : Bool := !s.isEmpty && s.all isDecDigit

/-- A malformed segment in the strict sense: after trimming it is non-empty and is
neither a string of decimal digits nor two such strings joined by one hyphen,
white space allowed around the hyphen. -/
def malformedSegment (m : List Char) : Bool :=
  let t := trim m
  !t.isEmpty && !isDigitString t &&
  !(match split '-' t with
    | [a, b] => isDigitString (trim a) && isDigitString (trim b)
    | _ => false)

/-- Whether, after leading white space and an optional sign, `s` goes on with a
decimal digit. -/
def readsInteger (s : List Char) : Bool :=
  match trimStart s with
  | '+' :: c :: _ => isDecDigit c
  | '-' :: c :: _ => isDecDigit c
  | c :: _ => isDecDigit c
  | [] => false

/-- A segment with no integer where the parser looks for one: after trimming it is
non-empty and, if it has no hyphen, it does not start with an (optionally signed)
decimal digit; if it has a hyphen, that holds for the trimmed text before the
first hyphen or for the trimmed text between the first hyphen and the next one (or
the end). -/
def unreadableSegment (m : List Char) : Bool :=
  let t := trim m
  !t.isEmpty &&
  (if '-' ∈ t then
    match split '-' t with
    | a :: b :: _ => !readsInteger (trim a) || !readsInteger (trim b)
    | _ => true
   else !readsInteger t)

/-! ## Runs of consecutive pages -/

/-- The runs `(start, end)` that the loop of `updatePageRangeInput` closes, in
order, when it is entered with the current run `start..end_` and the remaining
sorted pages. -/
def runsFrom : List Int → Int → Int → List (Int × Int)
  | [], start, end_ => [(start, end_)]
  | x :: rest, start, end_ =>
    if x = end_ + 1 then runsFrom rest start x
    else (start, end_) :: runsFrom rest x x

/-- The list `runs` is the list of maximal runs of consecutive integers of `S` in
ascending order: every run `(a, b)` has `a ≤ b`, each run ends at least two below
the start of the next one, and an integer belongs to `S` exactly when it lies in
one of the runs. -/
def IsRunListOf (S : List Int) (runs : List (Int × Int)) : Prop :=
  (∀ r ∈ runs, r.1 ≤ r.2) ∧
  List.Chain' (fun r r' : Int × Int => r.2 + 1 < r'.1) runs ∧
  ∀ x : Int, x ∈ S ↔ ∃ r ∈ runs, r.1 ≤ x ∧ x ≤ r.2

/-- Text of a run: "n" for a run with the one member `n`, "a-b" for a run from `a`
to `b` with two or more members. -/
def runText (r : Int × Int) : List Char :=
  if r.1 = r.2 then numToString r.1 else numToString r.1 ++ ['-'] ++ numToString r.2

/-! ## Slots and the application state -/

/-- A decoded document as `pdfjsLib` hands it back: its page count and the pages
whose `getPage` or `render` promise rejects. -/
structure PdfDoc where
  numPages : Int
  failingPages : List Int
  deriving DecidableEq, Repr

/-- A file chosen by the user, with the outcome of the calls made on it: whether
`arrayBuffer()` resolves, and the document `pdfjsLib.getDocument` decodes from
its bytes (`none` when the promise rejects). -/
structure File where
  name : String
  size : Nat
  readable : Bool
  decoded : Option PdfDoc
  deriving DecidableEq, Repr

/-- An entry of `state.pdfs`. -/
structure Slot where
  id : Int
  file : Option File
  pdfDoc : Option PdfDoc
  selectedPages : List Int
  totalPages : Int
  deriving DecidableEq, Repr

/-- The object `state`. -/
structure State where
  pdfs : List Slot
  nextId : Int
  deriving DecidableEq, Repr

/-- The method `Array.prototype.findIndex`, counting from `k`; `-1` when no
element satisfies `p`. -/
def findIndexFrom (p : Slot → Bool) : List Slot → Int → Int
  | [], _ => -1
  | x :: xs, k => if p x then k else findIndexFrom p xs (k + 1)

/-- The call `state.pdfs.findIndex(pdf => pdf.id === id)`. -/
def findIndex (pdfs : List Slot) (id : Int) : Int :=
  findIndexFrom (fun pdf => decide (pdf.id = id)) pdfs 0

/-- In-place update of the object `state.pdfs[index]`. -/
def updateSlot (pdfs : List Slot) (index : Nat) (f : Slot → Slot) : List Slot :=
  match pdfs[index]? with
  | some pdf => pdfs.set index (f pdf)
  | none => pdfs

/-- The function `addPDFSlot`. -/
def addPDFSlot (s : State) : State :=
  let id := s.nextId
  { pdfs := s.pdfs ++ [{ id := id, file := none, pdfDoc := none,
                         selectedPages := [], totalPages := 0 }],
    nextId := s.nextId + 1 }

/-- The state after `init`: two empty slots. -/
def init : State := addPDFSlot (addPDFSlot { pdfs := [], nextId := 1 })

/-- The function `generateThumbnails`: `true` when every page from 1 to
`numPages` is fetched and rendered, `false` when one of them throws. -/
def generateThumbnails (pdfDoc : PdfDoc) : Bool :=
  (forRange 1 pdfDoc.numPages).all (fun pageNum => decide (pageNum ∉ pdfDoc.failingPages))

/-- Text of the alert raised by the `catch` block of `handleFile`. -/
def loadError : String := "Error loading PDF. Please try again."

/-- The assignments under `// Update state` in `handleFile`: the slot takes the
file, the decoded document and its page count, and a fresh selection filled with
the pages 1 to `numPages`. -/
def storeDocument (file : File) (pdfDoc : PdfDoc) (pdf : Slot) : Slot :=
  { pdf with file := some file, pdfDoc := some pdfDoc, totalPages := pdfDoc.numPages,
             selectedPages := (forRange 1 pdfDoc.numPages).foldl setAdd [] }

/-- The function `handleFile(file, id)`: the state it leaves and the alert it
raises, if any. -/
def handleFile (s : State) (file : File) (id : Int) : State × Option String :=
  let index := findIndex s.pdfs id
  if index = -1 then (s, none)
  else if file.size > 50 * 1024 * 1024 then (s, some "File size exceeds 50MB limit")
  else if !file.readable then (s, some loadError)
  else
    match file.decoded with
    | none => (s, some loadError)
    | some pdfDoc =>
      let s1 : State :=
        { s with pdfs := updateSlot s.pdfs index.toNat (storeDocument file pdfDoc) }
      if generateThumbnails pdfDoc then (s1, none) else (s1, some loadError)

/-- The function `togglePageSelection(id, pageNum)`. -/
def togglePageSelection (s : State) (id : Int) (pageNum : Int) : State :=
  let index := findIndex s.pdfs id
  if index = -1 then s
  else
    { s with pdfs := updateSlot s.pdfs index.toNat (fun pdf =>
        if pageNum ∈ pdf.selectedPages then
          { pdf with selectedPages := setDelete pdf.selectedPages pageNum }
        else
          { pdf with selectedPages := setAdd pdf.selectedPages pageNum }) }

/-- The function `handlePageRangeInput(event, id)`, with `input` the value of the
event target. -/
def handlePageRangeInput (s : State) (input : List Char) (id : Int) : State :=
  let index := findIndex s.pdfs id
  if index = -1 then s
  else
    { s with pdfs := updateSlot s.pdfs index.toNat (fun pdf =>
        let pages := parsePageRange input pdf.totalPages
        { pdf with selectedPages := pages.foldl setAdd [] }) }

/-- The function `selectAllPages(id)`. -/
def selectAllPages (s : State) (id : Int) : State :=
  let index := findIndex s.pdfs id
  if index = -1 then s
  else
    { s with pdfs := updateSlot s.pdfs index.toNat (fun pdf =>
        { pdf with selectedPages := (forRange 1 pdf.totalPages).foldl setAdd [] }) }

/-- The function `deselectAllPages(id)`. -/
def deselectAllPages (s : State) (id : Int) : State :=
  let index := findIndex s.pdfs id
  if index = -1 then s
  else
    { s with pdfs := updateSlot s.pdfs index.toNat (fun pdf =>
        { pdf with selectedPages := [] }) }

/-- The function `removePDF(id)`: the state it leaves and the alert it raises,
if any. -/
def removePDF (s : State) (id : Int) : State × Option String :=
  if s.pdfs.length ≤ 2 then (s, some "You must have at least 2 PDFs to merge.")
  else
    let index := findIndex s.pdfs id
    if index = -1 then (s, none)
    else ({ s with pdfs := s.pdfs.eraseIdx index.toNat }, none)

/-- The destructuring assignment `[a[i], a[j]] = [a[j], a[i]]`. -/
def swapSlots (pdfs : List Slot) (i j : Nat) : List Slot :=
  match pdfs[j]?, pdfs[i]? with
  | some x, some y => (pdfs.set i x).set j y
  | _, _ => pdfs

/-- The function `movePDFUp(id)`. -/
def movePDFUp (s : State) (id : Int) : State :=
  let index := findIndex s.pdfs id
  if index ≤ 0 then s
  else { s with pdfs := swapSlots s.pdfs index.toNat (index - 1).toNat }

/-- The function `movePDFDown(id)`. -/
def movePDFDown (s : State) (id : Int) : State :=
  let index := findIndex s.pdfs id
  if index = -1 ∨ index ≥ (s.pdfs.length : Int) - 1 then s
  else { s with pdfs := swapSlots s.pdfs index.toNat (index + 1).toNat }

/-! ## Merging -/

/-- The function `Math.round` on an exact quotient: the nearest integer, halves
going up. -/
def mathRound (q : ℚ) : Int := ⌊q + 1 / 2⌋

/-- A call of `updateProgress(percent, text)`. -/
structure Progress where
  percent : Int
  text : List Char
  deriving DecidableEq, Repr

/-- A call of `mergedPdf.copyPages(pdfDoc, [pageIndex])` followed by `addPage`,
for the document of the slot at list position `slot`. -/
structure Copy where
  slot : Nat
  pageIndex : Int
  deriving DecidableEq, Repr

/-- What a run of `mergePDFs` does, in order: its progress reports and the pages
it copies into the merged document. -/
structure MergeLog where
  progress : List Progress
  copies : List Copy
  deriving DecidableEq, Repr

/-- The loop `for (let i = 0; i < state.pdfs.length; i++)` of `mergePDFs`, entered
at position `i` with the slots from `i` on. The library calls inside it
(`arrayBuffer`, `PDFDocument.load`, `copyPages`, `addPage`) are taken to
resolve. -/
def mergeLoop (totalPDFs : Nat) : List Slot → Nat → MergeLog → MergeLog
  | [], _, log => log
  | pdf :: rest, i, log =>
    if pdf.file.isNone then mergeLoop totalPDFs rest (i + 1) log
    else
      let progress := mathRound ((i : ℚ) / (totalPDFs : ℚ) * 80)
      let text := "Processing PDF ".toList ++ numToString (i + 1) ++ " of ".toList ++
        numToString totalPDFs ++ "...".toList
      let selectedPages := sortAscending pdf.selectedPages
      mergeLoop totalPDFs rest (i + 1)
        { progress := log.progress ++ [{ percent := progress, text := text }],
          copies := log.copies ++ selectedPages.map (fun pageNum =>
            { slot := i, pageIndex := pageNum - 1 }) }

/-- The function `mergePDFs` up to the download of the merged document. -/
def mergePDFs (s : State) : MergeLog :=
  let totalPDFs := (s.pdfs.filter (fun pdf => pdf.file.isSome)).length
  let log := mergeLoop totalPDFs s.pdfs 0
    { progress := [{ percent := 0, text := "Initializing...".toList }], copies := [] }
  { log with progress := log.progress ++
      [{ percent := 90, text := "Generating merged PDF...".toList },
       { percent := 100, text := "Complete!".toList }] }

/-! ## Sequences of user actions -/

/-- A user action on the page, named after the handler it runs. -/
inductive Action where
  | addPDFSlot
  | handleFile (file : File) (id : Int)
  | togglePageSelection (id : Int) (pageNum : Int)
  | handlePageRangeInput (input : List Char) (id : Int)
  | selectAllPages (id : Int)
  | deselectAllPages (id : Int)
  | removePDF (id : Int)
  | movePDFUp (id : Int)
  | movePDFDown (id : Int)
  deriving DecidableEq, Repr

/-- Whether the page offers the action in state `s`: a thumbnail can be clicked
only for a page `1 ≤ pageNum ≤ totalPages` of an existing slot; every other
action is always on offer. -/
def Action.offered (s : State) : Action → Bool
  | .togglePageSelection id pageNum =>
    let index := findIndex s.pdfs id
    decide (index ≠ -1) &&
    (match s.pdfs[index.toNat]? with
     | some pdf => decide (1 ≤ pageNum) && decide (pageNum ≤ pdf.totalPages)
     | none => false)
  | _ => true

/-- The state after the handler of an action has run to completion. -/
def Action.apply (s : State) : Action → State
  | .addPDFSlot => PdfMerger.addPDFSlot s
  | .handleFile file id => (PdfMerger.handleFile s file id).1
  | .togglePageSelection id pageNum => PdfMerger.togglePageSelection s id pageNum
  | .handlePageRangeInput input id => PdfMerger.handlePageRangeInput s input id
  | .selectAllPages id => PdfMerger.selectAllPages s id
  | .deselectAllPages id => PdfMerger.deselectAllPages s id
  | .removePDF id => (PdfMerger.removePDF s id).1
  | .movePDFUp id => PdfMerger.movePDFUp s id
  | .movePDFDown id => PdfMerger.movePDFDown s id

/-- The state reached from `s` by a sequence of actions, `none` when one of them
is not on offer when its turn comes. -/
def run : State → List Action → Option State
  | s, [] => some s
  | s, a :: rest => if a.offered s then run (a.apply s) rest else none

/-- Every selected page of every slot lies between 1 and the slot's page count. -/
def SelectionInRange (s : State) : Prop :=
  ∀ pdf ∈ s.pdfs, ∀ p ∈ pdf.selectedPages, 1 ≤ p ∧ p ≤ pdf.totalPages

/-! ## Sample files, states and runs -/

/-- A file that reads and decodes to a two-page document whose first page fails
to render. -/
def brokenPageFile : File :=
  { name := "broken.pdf", size := 1000, readable := true,
    decoded := some { numPages := 2, failingPages := [1] } }

/-- A file that reads, decodes to `n` pages and renders every page. -/
def goodFile (n : Int) : File :=
  { name := "good.pdf", size := 1000, readable := true,
    decoded := some { numPages := n, failingPages := [] } }

/-- Four slots, the first two empty and the last two loaded: the state after two
more slots are added to the initial ones and files are loaded into slots 3 and 4. -/
def twoEmptyTwoLoaded : State :=
  (handleFile (handleFile (addPDFSlot (addPDFSlot init)) (goodFile 2) 3).1 (goodFile 1) 4).1

/-- A run of the page: load three pages into slot 1, unselect page 2, add a slot,
type a range text, move slot 1 down, remove slot 2. -/
def sampleActions : List Action :=
  [.handleFile (goodFile 3) 1, .togglePageSelection 1 2, .addPDFSlot,
   .handlePageRangeInput "2-9, 1".toList 1, .movePDFDown 1, .removePDF 2]

/-- The state at the end of `sampleActions`. -/
def sampleState : State :=
  { pdfs := [{ id := 1, file := some (goodFile 3), pdfDoc := some { numPages := 3, failingPages := [] },
               selectedPages := [1, 2, 3], totalPages := 3 },
             { id := 3, file := none, pdfDoc := none, selectedPages := [], totalPages := 0 }],
    nextId := 4 }

/-! ## Lemmas on `findIndex` and slot updates -/

theorem findIndexFrom_spec (p : Slot → Bool) (l : List Slot) (k : Int) :
    (findIndexFrom p l k = -1 ∧ ∀ x ∈ l, p x = false) ∨
    (∃ i : Nat, i < l.length ∧ findIndexFrom p l k = k + i ∧
      (∃ x, l[i]? = some x ∧ p x = true) ∧
      ∀ j : Nat, j < i → ∀ y, l[j]? = some y → p y = false) := by
  induction l generalizing k with
  | nil => left; simp [findIndexFrom]
  | cons x xs ih =>
    by_cases hx : p x = true
    · right
      refine ⟨0, by simp, by simp [findIndexFrom, hx], ⟨x, by simp, hx⟩, ?_⟩
      intro j hj; omega
    · have hx' : p x = false := by simpa using hx
      rcases ih (k + 1) with ⟨h1, h2⟩ | ⟨i, hi, h1, ⟨y, hy, hpy⟩, h3⟩
      · left
        refine ⟨by simp [findIndexFrom, hx', h1], ?_⟩
        intro z hz
        rcases List.mem_cons.mp hz with rfl | hz
        · exact hx'
        · exact h2 z hz
      · right
        refine ⟨i + 1, by simpa using hi, ?_, ⟨y, by simpa using hy, hpy⟩, ?_⟩
        · simp only [findIndexFrom, hx', Bool.false_eq_true, if_false, h1]
          push_cast; ring
        · intro j hj z hz
          cases j with
          | zero => simp at hz; subst hz; exact hx'
          | succ j => exact h3 j (by omega) z (by simpa using hz)

theorem findIndex_spec (pdfs : List Slot) (id : Int) :
    (findIndex pdfs id = -1 ∧ ∀ x ∈ pdfs, x.id ≠ id) ∨
    (∃ i : Nat, i < pdfs.length ∧ findIndex pdfs id = (i : Int) ∧
      (∃ x, pdfs[i]? = some x ∧ x.id = id) ∧
      ∀ j : Nat, j < i → ∀ y, pdfs[j]? = some y → y.id ≠ id) := by
  rcases findIndexFrom_spec (fun pdf => decide (pdf.id = id)) pdfs 0 with
    ⟨h1, h2⟩ | ⟨i, hi, h1, ⟨x, hx, hpx⟩, h3⟩
  · left
    refine ⟨h1, fun x hx => ?_⟩
    simpa using h2 x hx
  · right
    refine ⟨i, hi, by simpa [findIndex] using h1, ⟨x, hx, by simpa using hpx⟩, ?_⟩
    intro j hj y hy
    simpa using h3 j hj y hy

theorem findIndex_of_nodup (pdfs : List Slot) (id : Int) (i : Nat)
    (hd : (pdfs.map Slot.id).Nodup) (x : Slot) (hx : pdfs[i]? = some x) (hid : x.id = id) :
    findIndex pdfs id = (i : Int) := by
  rcases findIndex_spec pdfs id with ⟨_, h2⟩ | ⟨k, hk, h1, ⟨y, hy, hyid⟩, h3⟩
  · exact absurd hid (h2 x (List.getElem?_mem hx))
  · have hi : i < pdfs.length := by
      rcases List.getElem?_eq_some.mp hx with ⟨h, _⟩
      exact h
    have hki : k = i := by
      have hinj := List.nodup_iff_injective_get.mp hd
      have e1 : (pdfs.map Slot.id)[k]? = some id := by simp [List.getElem?_map, hy, hyid]
      have e2 : (pdfs.map Slot.id)[i]? = some id := by simp [List.getElem?_map, hx, hid]
      have hk' : k < (pdfs.map Slot.id).length := by simpa using hk
      have hi' : i < (pdfs.map Slot.id).length := by simpa using hi
      have g1 : (pdfs.map Slot.id).get ⟨k, hk'⟩ = id := by
        rcases List.getElem?_eq_some.mp e1 with ⟨_, h⟩
        simpa using h
      have g2 : (pdfs.map Slot.id).get ⟨i, hi'⟩ = id := by
        rcases List.getElem?_eq_some.mp e2 with ⟨_, h⟩
        simpa using h
      have := hinj (g1.trans g2.symm)
      simpa using congrArg Fin.val this
    rw [h1, hki]

theorem findIndex_not_mem (pdfs : List Slot) (id : Int) (h : ∀ x ∈ pdfs, x.id ≠ id) :
    findIndex pdfs id = -1 := by
  rcases findIndex_spec pdfs id with ⟨h1, _⟩ | ⟨k, _, _, ⟨y, hy, hyid⟩, _⟩
  · exact h1
  · exact absurd hyid (h y (List.getElem?_mem hy))

/-! ## Decimal text and `parseInt` -/

theorem digitChar_toNat (d : Nat) (h : d < 10) : (Nat.digitChar d).toNat = 48 + d := by
  interval_cases d <;> rfl

theorem isDecDigit_iff (c : Char) : isDecDigit c = true ↔ 48 ≤ c.toNat ∧ c.toNat ≤ 57 := by
  simp [isDecDigit]

theorem isDecDigit_digitChar (d : Nat) (h : d < 10) : isDecDigit (Nat.digitChar d) = true := by
  rw [isDecDigit_iff, digitChar_toNat d h]; omega

theorem digitValue_digitChar (d : Nat) (h : d < 10) : digitValue (Nat.digitChar d) = some d := by
  unfold digitValue
  simp only [digitChar_toNat d h]
  rw [if_pos (by omega)]
  congr 1; omega

theorem isWhiteSpace_of_digit (c : Char) (h : isDecDigit c = true) : isWhiteSpace c = false := by
  rw [isDecDigit_iff] at h
  unfold isWhiteSpace
  simp only [Bool.or_eq_false_iff, decide_eq_false_iff_not, Bool.and_eq_false_imp, decide_eq_true_eq]
  omega

theorem isRadixDigit_of_digit (c : Char) (h : isDecDigit c = true) : isRadixDigit 10 c = true := by
  rw [isDecDigit_iff] at h
  unfold isRadixDigit digitValue
  simp only [h, and_self, if_true, decide_eq_true_eq]
  omega

theorem ne_of_digit (c d : Char) (h : isDecDigit c = true) (hd : isDecDigit d = false) : c ≠ d := by
  rintro rfl
  rw [h] at hd
  exact Bool.noConfusion hd

theorem digitsToNat_append (R : Nat) (l : List Char) (c : Char) :
    digitsToNat R (l ++ [c]) = digitsToNat R l * R + (digitValue c).getD 0 := by
  simp [digitsToNat, List.foldl_append]

theorem natDigits_spec (f n : Nat) (h : n < f) :
    natDigits f n ≠ [] ∧ (∀ c ∈ natDigits f n, isDecDigit c = true) ∧
    digitsToNat 10 (natDigits f n) = n := by
  induction f generalizing n with
  | zero => omega
  | succ f ih =>
    unfold natDigits
    by_cases hn : n < 10
    · simp only [hn, if_true]
      refine ⟨by simp, ?_, ?_⟩
      · intro c hc
        simp only [List.mem_singleton] at hc
        subst hc
        exact isDecDigit_digitChar n hn
      · simp [digitsToNat, digitValue_digitChar n hn]
    · simp only [hn, if_false]
      obtain ⟨_, h2, h3⟩ := ih (n / 10) (by omega)
      refine ⟨by simp, ?_, ?_⟩
      · intro c hc
        rcases List.mem_append.mp hc with hc | hc
        · exact h2 c hc
        · simp only [List.mem_singleton] at hc
          subst hc
          exact isDecDigit_digitChar _ (Nat.mod_lt _ (by omega))
      · rw [digitsToNat_append, h3, digitValue_digitChar _ (Nat.mod_lt _ (by omega))]
        simp only [Option.getD_some]
        omega

theorem numToString_natCast (n : Nat) : numToString (n : Int) = natDigits (n + 1) n := by
  unfold numToString
  have h : ¬ ((n : Int) < 0) := by omega
  simp only [h, if_false, Int.natAbs_ofNat]

theorem numToString_nonneg (n : Int) (h : 0 ≤ n) :
    numToString n ≠ [] ∧ (∀ c ∈ numToString n, isDecDigit c = true) ∧
    digitsToNat 10 (numToString n) = n.toNat := by
  obtain ⟨k, rfl⟩ := Int.eq_ofNat_of_zero_le h
  rw [numToString_natCast]
  simpa using natDigits_spec (k + 1) k (by omega)

theorem trimStart_of_head (c : Char) (cs : List Char) (h : isWhiteSpace c = false) :
    trimStart (c :: cs) = c :: cs := by
  simp [trimStart, List.dropWhile, h]

theorem trimStart_of_all (s : List Char) (h : ∀ c ∈ s, isWhiteSpace c = false) :
    trimStart s = s := by
  cases s with
  | nil => rfl
  | cons c cs => exact trimStart_of_head c cs (h c (by simp))

theorem trimEnd_of_all (s : List Char) (h : ∀ c ∈ s, isWhiteSpace c = false) :
    trimEnd s = s := by
  unfold trimEnd
  have : s.reverse.dropWhile isWhiteSpace = s.reverse :=
    trimStart_of_all s.reverse (fun c hc => h c (List.mem_reverse.mp hc))
  rw [this, List.reverse_reverse]

theorem trim_of_all (s : List Char) (h : ∀ c ∈ s, isWhiteSpace c = false) : trim s = s := by
  unfold trim
  rw [trimStart_of_all s h, trimEnd_of_all s h]

theorem trim_space_cons (s : List Char) : trim (' ' :: s) = trim s := by
  simp [trim, trimStart, List.dropWhile, show isWhiteSpace ' ' = true from by decide]

theorem parseInt_of_digits (Z : List Char) (hne : Z ≠ [])
    (hd : ∀ c ∈ Z, isDecDigit c = true) : parseInt Z = some (digitsToNat 10 Z : Int) := by
  cases Z with
  | nil => exact absurd rfl hne
  | cons c cs =>
    have hc : isDecDigit c = true := hd c (by simp)
    have h1 : c ≠ '-' := ne_of_digit c '-' hc (by decide)
    have h2 : c ≠ '+' := ne_of_digit c '+' hc (by decide)
    have htake : (c :: cs).takeWhile (isRadixDigit 10) = c :: cs := by
      rw [List.takeWhile_eq_self_iff]
      intro x hx
      exact isRadixDigit_of_digit x (hd x hx)
    have hx : ∀ r, cs ≠ 'x' :: r := by
      rintro r rfl
      exact ne_of_digit 'x' 'x' (hd 'x' (by simp)) (by decide) rfl
    have hX : ∀ r, cs ≠ 'X' :: r := by
      rintro r rfl
      exact ne_of_digit 'X' 'X' (hd 'X' (by simp)) (by decide) rfl
    unfold parseInt
    rw [trimStart_of_head c cs (isWhiteSpace_of_digit c hc)]
    simp only
    have e1 : (match c :: cs with
        | '-' :: _ => (-1 : Int)
        | _ => 1) = 1 := by
      split
      · rename_i h; injection h with h _; exact absurd h h1
      · rfl
    have e2 : (match c :: cs with
        | '+' :: r => r
        | '-' :: r => r
        | _ => c :: cs) = c :: cs := by
      split
      · rename_i h; injection h with h _; exact absurd h h2
      · rename_i h; injection h with h _; exact absurd h h1
      · rfl
    rw [e1, e2]
    have e3 : (match c :: cs with
        | '0' :: 'x' :: r => ((16 : Nat), r)
        | '0' :: 'X' :: r => (16, r)
        | _ => (10, c :: cs)) = (10, c :: cs) := by
      split
      · rename_i r h; injection h with _ h; exact absurd h (hx r)
      · rename_i r h; injection h with _ h; exact absurd h (hX r)
      · rfl
    rw [e3]
    simp only [htake, List.isEmpty_cons, Bool.false_eq_true, if_false, one_mul]

theorem parseInt_numToString (n : Int) (h : 0 ≤ n) : parseInt (numToString n) = some n := by
  obtain ⟨hne, hd, hv⟩ := numToString_nonneg n h
  rw [parseInt_of_digits _ hne hd, hv]
  congr 1
  omega

/-! ## Removal and reordering -/

theorem swapSlots_length (pdfs : List Slot) (i j : Nat) :
    (swapSlots pdfs i j).length = pdfs.length := by
  unfold swapSlots
  split <;> simp

theorem swapSlots_getElem? (pdfs : List Slot) (i j : Nat) (hi : i < pdfs.length)
    (hj : j < pdfs.length) (hij : i ≠ j) :
    (swapSlots pdfs i j)[i]? = pdfs[j]? ∧ (swapSlots pdfs i j)[j]? = pdfs[i]? ∧
    ∀ k, k ≠ i → k ≠ j → (swapSlots pdfs i j)[k]? = pdfs[k]? := by
  have e1 : pdfs[i]? = some pdfs[i] := List.getElem?_eq_getElem hi
  have e2 : pdfs[j]? = some pdfs[j] := List.getElem?_eq_getElem hj
  unfold swapSlots
  rw [e1, e2]
  refine ⟨?_, ?_, ?_⟩
  · rw [List.getElem?_set_ne (Ne.symm hij), List.getElem?_set_self hi]
  · rw [List.getElem?_set_self (by simpa using hj)]
  · intro k hki hkj
    rw [List.getElem?_set_ne (Ne.symm hkj), List.getElem?_set_ne (Ne.symm hki)]

/-- Claim C6. With at most two slots `removePDF` raises the minimum-count alert and
leaves the state as it was; with more than two slots and a slot of the given id
in the list, it deletes one slot carrying that id (the first) and keeps every
other slot in place order. -/
theorem removePDF_floor (s : State) (id : Int) :
    (s.pdfs.length ≤ 2 →
      removePDF s id = (s, some "You must have at least 2 PDFs to merge.")) ∧
    (2 < s.pdfs.length → (∃ x ∈ s.pdfs, x.id = id) →
      ∃ (i : Nat) (x : Slot), s.pdfs[i]? = some x ∧ x.id = id ∧
        (removePDF s id).1.pdfs = s.pdfs.take i ++ s.pdfs.drop (i + 1) ∧
        (removePDF s id).1.pdfs.length + 1 = s.pdfs.length ∧
        (removePDF s id).1.nextId = s.nextId ∧ (removePDF s id).2 = none) := by
  constructor
  · intro h
    simp [removePDF, h]
  · rintro h ⟨x, hx, hxid⟩
    rcases findIndex_spec s.pdfs id with ⟨_, h2⟩ | ⟨i, hi, h1, ⟨y, hy, hyid⟩, _⟩
    · exact absurd hxid (h2 x hx)
    · have hne : findIndex s.pdfs id ≠ -1 := by rw [h1]; omega
      have hnl : ¬ s.pdfs.length ≤ 2 := by omega
      refine ⟨i, y, hy, hyid, ?_, ?_, ?_, ?_⟩
      · simp [removePDF, hnl, hne, h1, List.eraseIdx_eq_take_drop_succ]
      · simp [removePDF, hnl, hne, h1, List.length_eraseIdx, hi]
        omega
      · simp [removePDF, hnl, hne]
      · simp [removePDF, hnl, hne]

theorem removePDF_floor_witness :
    ∃ (i : Nat) (x : Slot), (addPDFSlot init).pdfs[i]? = some x ∧ x.id = 2 ∧
      (removePDF (addPDFSlot init) 2).1.pdfs =
        (addPDFSlot init).pdfs.take i ++ (addPDFSlot init).pdfs.drop (i + 1) ∧
      (removePDF (addPDFSlot init) 2).1.pdfs.length + 1 = (addPDFSlot init).pdfs.length ∧
      (removePDF (addPDFSlot init) 2).1.nextId = (addPDFSlot init).nextId ∧
      (removePDF (addPDFSlot init) 2).2 = none :=
  (removePDF_floor (addPDFSlot init) 2).2 (by decide)
    ⟨{ id := 2, file := none, pdfDoc := none, selectedPages := [], totalPages := 0 },
      by decide, rfl⟩

/-- Claim C7. In a list with distinct ids and a slot of the given id at position
`i`: `movePDFUp` exchanges positions `i - 1` and `i` when `i ≥ 1` and changes
nothing when `i = 0`; `movePDFDown` exchanges positions `i` and `i + 1` when `i`
is not last and changes nothing when it is; every other position keeps its slot.
Both change nothing when no slot carries the id. -/
theorem movePDF_swaps (s : State) (id : Int) (i : Nat) (x : Slot)
    (hd : (s.pdfs.map Slot.id).Nodup) (hx : s.pdfs[i]? = some x) (hid : x.id = id) :
    (1 ≤ i →
      (movePDFUp s id).nextId = s.nextId ∧
      (movePDFUp s id).pdfs.length = s.pdfs.length ∧
      (movePDFUp s id).pdfs[i - 1]? = s.pdfs[i]? ∧
      (movePDFUp s id).pdfs[i]? = s.pdfs[i - 1]? ∧
      ∀ k, k ≠ i → k ≠ i - 1 → (movePDFUp s id).pdfs[k]? = s.pdfs[k]?) ∧
    (i = 0 → movePDFUp s id = s) ∧
    (i + 1 < s.pdfs.length →
      (movePDFDown s id).nextId = s.nextId ∧
      (movePDFDown s id).pdfs.length = s.pdfs.length ∧
      (movePDFDown s id).pdfs[i + 1]? = s.pdfs[i]? ∧
      (movePDFDown s id).pdfs[i]? = s.pdfs[i + 1]? ∧
      ∀ k, k ≠ i → k ≠ i + 1 → (movePDFDown s id).pdfs[k]? = s.pdfs[k]?) ∧
    (i + 1 = s.pdfs.length → movePDFDown s id = s) ∧
    (∀ (t : State) (j : Int), (∀ y ∈ t.pdfs, y.id ≠ j) →
      movePDFUp t j = t ∧ movePDFDown t j = t) := by
  have hidx : findIndex s.pdfs id = (i : Int) := findIndex_of_nodup s.pdfs id i hd x hx hid
  have hi : i < s.pdfs.length := (List.getElem?_eq_some.mp hx).1
  refine ⟨?_, ?_, ?_, ?_, ?_⟩
  · intro h1
    have hpos : ¬ ((i : Int) ≤ 0) := by omega
    have e1 : ((i : Int) - 1).toNat = i - 1 := by omega
    have hsw := swapSlots_getElem? s.pdfs i (i - 1) hi (by omega) (by omega)
    simp only [movePDFUp, hidx, hpos, if_false, Int.toNat_ofNat, e1]
    exact ⟨trivial, swapSlots_length _ _ _, hsw.2.1, hsw.1, hsw.2.2⟩
  · intro h0
    simp [movePDFUp, hidx, h0]
  · intro h1
    have hcond : ¬ ((i : Int) = -1 ∨ (i : Int) ≥ (s.pdfs.length : Int) - 1) := by omega
    have e1 : ((i : Int) + 1).toNat = i + 1 := by omega
    have hsw := swapSlots_getElem? s.pdfs i (i + 1) hi h1 (by omega)
    simp only [movePDFDown, hidx, hcond, if_false, Int.toNat_ofNat, e1]
    exact ⟨trivial, swapSlots_length _ _ _, hsw.2.1, hsw.1, hsw.2.2⟩
  · intro h1
    have hcond : ((i : Int) = -1 ∨ (i : Int) ≥ (s.pdfs.length : Int) - 1) := by omega
    simp only [movePDFDown, hidx, hcond, if_true]
  · intro t j h
    have := findIndex_not_mem t.pdfs j h
    simp [movePDFUp, movePDFDown, this]

theorem movePDF_swaps_witness :
    (movePDFUp (addPDFSlot init) 2).pdfs.map Slot.id = [2, 1, 3] ∧
    (movePDFDown (addPDFSlot init) 2).pdfs.map Slot.id = [1, 3, 2] ∧
    (movePDFUp (addPDFSlot init) 2).pdfs[0]? = (addPDFSlot init).pdfs[1]? ∧
    (movePDFDown (addPDFSlot init) 2).pdfs[2]? = (addPDFSlot init).pdfs[1]? :=
  ⟨by decide, by decide,
    ((movePDF_swaps (addPDFSlot init) 2 1
      { id := 2, file := none, pdfDoc := none, selectedPages := [], totalPages := 0 }
      (by decide) (by decide) rfl).1 (by decide)).2.2.1,
    ((movePDF_swaps (addPDFSlot init) 2 1
      { id := 2, file := none, pdfDoc := none, selectedPages := [], totalPages := 0 }
      (by decide) (by decide) rfl).2.2.1 (by decide)).2.2.1⟩

/-! ## Loading a file -/

/-- Claim C8, at a failing input. In the initial state, loading into slot 1 a file
whose first thumbnail cannot be rendered raises the load-error alert, yet the slot
keeps the new file, document, page count and selection: the state is written
before `generateThumbnails` runs and the `catch` block does not restore it. -/
theorem handleFile_thumbnail_failure_keeps_update :
    (handleFile init brokenPageFile 1).2 = some loadError ∧
    init.pdfs.map (fun pdf => (pdf.file, pdf.pdfDoc, pdf.totalPages, pdf.selectedPages)) =
      [(none, none, 0, []), (none, none, 0, [])] ∧
    (handleFile init brokenPageFile 1).1.pdfs.map
        (fun pdf => (pdf.file, pdf.pdfDoc, pdf.totalPages, pdf.selectedPages)) =
      [(some brokenPageFile, some { numPages := 2, failingPages := [1] }, 2, [1, 2]),
       (none, none, 0, [])] := by
  decide

/-- A load that fails before the document is decoded (file too large, bytes not
readable, document not decodable) leaves the state as it was. -/
theorem handleFile_early_failure (s : State) (file : File) (id : Int)
    (h : file.size > 50 * 1024 * 1024 ∨ file.readable = false ∨ file.decoded = none) :
    (handleFile s file id).1 = s := by
  unfold handleFile
  by_cases h1 : findIndex s.pdfs id = -1
  · simp [h1]
  · by_cases h2 : file.size > 50 * 1024 * 1024
    · simp [h1, h2]
    · by_cases h3 : file.readable = false
      · simp [h1, h2, h3]
      · rcases h with h | h | h
        · exact absurd h h2
        · exact absurd h h3
        · simp [h1, h2, h3, h]

/-! ## The merge loop -/

theorem mergeLoop_copies (L : Nat) (pdfs : List Slot) (i : Nat) (log : MergeLog) :
    (mergeLoop L pdfs i log).copies =
      log.copies ++ ((pdfs.enumFrom i).filter (fun ip => ip.2.file.isSome)).flatMap
        (fun ip => (sortAscending ip.2.selectedPages).map
          (fun pageNum => ({ slot := ip.1, pageIndex := pageNum - 1 } : Copy))) := by
  induction pdfs generalizing i log with
  | nil => simp [mergeLoop]
  | cons pdf rest ih =>
    cases hf : pdf.file with
    | none => simp [mergeLoop, hf, ih, List.enumFrom_cons, List.filter_cons]
    | some f => simp [mergeLoop, hf, ih, List.enumFrom_cons, List.filter_cons]

theorem sortAscending_perm (l : List Int) : (sortAscending l).Perm l :=
  List.perm_insertionSort _ l

theorem sortAscending_sorted (l : List Int) : (sortAscending l).Sorted (· ≤ ·) :=
  List.sorted_insertionSort _ l

/-! ## Sets of pages -/

theorem mem_forRange (lo hi p : Int) : p ∈ forRange lo hi ↔ lo ≤ p ∧ p ≤ hi := by
  unfold forRange
  simp only [List.mem_map, List.mem_range]
  constructor
  · rintro ⟨k, hk, rfl⟩
    omega
  · rintro ⟨h1, h2⟩
    exact ⟨(p - lo).toNat, by omega, by omega⟩

theorem mem_setAdd (s : List Int) (x y : Int) : y ∈ setAdd s x ↔ y ∈ s ∨ y = x := by
  unfold setAdd
  split
  · constructor
    · intro h; exact Or.inl h
    · rintro (h | rfl)
      · exact h
      · assumption
  · simp

theorem mem_foldl_setAdd (l acc : List Int) (x : Int) :
    x ∈ l.foldl setAdd acc ↔ x ∈ acc ∨ x ∈ l := by
  induction l generalizing acc with
  | nil => simp
  | cons y ys ih =>
    simp only [List.foldl_cons, ih, mem_setAdd, List.mem_cons]
    tauto

theorem nodup_setAdd (s : List Int) (x : Int) (h : s.Nodup) : (setAdd s x).Nodup := by
  unfold setAdd
  split
  · exact h
  · rename_i hx
    rw [List.nodup_append]
    refine ⟨h, List.nodup_singleton x, ?_⟩
    intro a ha hb
    simp only [List.mem_singleton] at hb
    subst hb
    exact hx ha

theorem nodup_foldl_setAdd (l acc : List Int) (h : acc.Nodup) :
    (l.foldl setAdd acc).Nodup := by
  induction l generalizing acc with
  | nil => simpa using h
  | cons y ys ih => exact ih _ (nodup_setAdd acc y h)

theorem mem_sortAscending (l : List Int) (x : Int) : x ∈ sortAscending l ↔ x ∈ l :=
  (sortAscending_perm l).mem_iff

/-- Claim C2. The pages copied by `mergePDFs`, read as (list position of the slot,
page number) pairs, are those of the slots with a file, in list order, each slot
giving its selected pages in ascending order (a rearrangement of its selection);
page `p` is copied as index `p - 1`, and a slot without a file gives nothing. Two
loaded slots with selections {2,1}, in either insertion order, and {1} give
[(0,1),(0,2),(1,1)]. -/
theorem mergePDFs_order (s : State) :
    (∃ ascending : Slot → List Int,
      (∀ pdf, (ascending pdf).Perm pdf.selectedPages ∧ (ascending pdf).Sorted (· ≤ ·)) ∧
      (mergePDFs s).copies =
        ((s.pdfs.enum).filter (fun ip => ip.2.file.isSome)).flatMap
          (fun ip => (ascending ip.2).map
            (fun p => ({ slot := ip.1, pageIndex := p - 1 } : Copy)))) ∧
    (∀ (a b : Slot) (n : Int), a.file.isSome → b.file.isSome →
      a.selectedPages.Perm [2, 1] → b.selectedPages = [1] →
      (mergePDFs { pdfs := [a, b], nextId := n }).copies.map
        (fun c => (c.slot, c.pageIndex + 1)) = [(0, 1), (0, 2), (1, 1)]) := by
  constructor
  · refine ⟨fun pdf => sortAscending pdf.selectedPages,
      fun pdf => ⟨sortAscending_perm _, sortAscending_sorted _⟩, ?_⟩
    simp [mergePDFs, mergeLoop_copies, List.enum]
  · intro a b n ha hb hpa hpb
    have h1 : sortAscending a.selectedPages = [1, 2] := by
      apply List.eq_of_perm_of_sorted (r := (· ≤ ·))
      · exact (sortAscending_perm _).trans (hpa.trans (List.Perm.swap 1 2 []))
      · exact sortAscending_sorted _
      · decide
    have h2 : sortAscending b.selectedPages = [1] := by rw [hpb]; decide
    simp [mergePDFs, mergeLoop_copies, List.enumFrom_cons, List.filter_cons, ha, hb, h1, h2]

theorem mergePDFs_order_witness :
    (mergePDFs { pdfs := [{ id := 1, file := some brokenPageFile, pdfDoc := none,
                            selectedPages := [2, 1], totalPages := 2 },
                          { id := 2, file := some brokenPageFile, pdfDoc := none,
                            selectedPages := [1], totalPages := 2 }],
                 nextId := 3 }).copies.map
        (fun c => (c.slot, c.pageIndex + 1)) = [(0, 1), (0, 2), (1, 1)] :=
  (mergePDFs_order init).2 _ _ 3 rfl rfl (List.Perm.refl _) rfl

theorem mergeLoop_progress (L : Nat) (pdfs : List Slot) (i : Nat) (log : MergeLog) :
    (mergeLoop L pdfs i log).progress =
      log.progress ++ ((pdfs.enumFrom i).filter (fun ip => ip.2.file.isSome)).map
        (fun ip => ({ percent := mathRound ((ip.1 : ℚ) / (L : ℚ) * 80),
                      text := "Processing PDF ".toList ++ numToString (ip.1 + 1) ++
                        " of ".toList ++ numToString L ++ "...".toList } : Progress)) := by
  induction pdfs generalizing i log with
  | nil => simp [mergeLoop]
  | cons pdf rest ih =>
    cases hf : pdf.file with
    | none => simp [mergeLoop, hf, ih, List.enumFrom_cons, List.filter_cons]
    | some f => simp [mergeLoop, hf, ih, List.enumFrom_cons, List.filter_cons]

/-- Claim C10, at a failing input. With slots [empty, empty, loaded, loaded] the
loop reports 80 with "Processing PDF 3 of 2..." and then 120 with
"Processing PDF 4 of 2...": the list position `i` is used where a count of the
loaded slots met so far is meant. -/
theorem mergePDFs_progress_overshoots :
    twoEmptyTwoLoaded.pdfs.map (fun pdf => pdf.file.isSome) = [false, false, true, true] ∧
    (mergePDFs twoEmptyTwoLoaded).progress =
      [{ percent := 0, text := "Initializing...".toList },
       { percent := 80, text := "Processing PDF 3 of 2...".toList },
       { percent := 120, text := "Processing PDF 4 of 2...".toList },
       { percent := 90, text := "Generating merged PDF...".toList },
       { percent := 100, text := "Complete!".toList }] := by
  have hs : twoEmptyTwoLoaded =
      { pdfs := [{ id := 1, file := none, pdfDoc := none, selectedPages := [], totalPages := 0 },
                 { id := 2, file := none, pdfDoc := none, selectedPages := [], totalPages := 0 },
                 { id := 3, file := some (goodFile 2), pdfDoc := (goodFile 2).decoded,
                   selectedPages := [1, 2], totalPages := 2 },
                 { id := 4, file := some (goodFile 1), pdfDoc := (goodFile 1).decoded,
                   selectedPages := [1], totalPages := 1 }],
        nextId := 5 } := by decide
  have r1 : mathRound (80 : ℚ) = 80 := by
    unfold mathRound; rw [Int.floor_eq_iff]; norm_num
  have r2 : mathRound (120 : ℚ) = 120 := by
    unfold mathRound; rw [Int.floor_eq_iff]; norm_num
  have t3 : numToString 3 = ['3'] := by decide
  have t4 : numToString 4 = ['4'] := by decide
  have t2 : numToString 2 = ['2'] := by decide
  refine ⟨by decide, ?_⟩
  rw [hs]
  simp only [mergePDFs, mergeLoop_progress, List.enumFrom_cons, List.filter_cons,
    List.enumFrom_nil, List.filter_nil, Option.isSome_none, Option.isSome_some,
    List.length_cons, List.length_nil, List.map_cons, List.map_nil, List.append_assoc,
    List.cons_append, List.nil_append, Bool.false_eq_true, if_false, if_true]
  norm_num [r1, r2, t2, t3, t4]

/-! ## The selection stays inside the page range -/

theorem parsePart_mem (T : Int) (pages : List Int) (part : List Char) (p : Int)
    (h : p ∈ parsePart T pages part) : p ∈ pages ∨ (1 ≤ p ∧ p ≤ T) := by
  unfold parsePart at h
  simp only at h
  split at h
  · exact Or.inl h
  · split at h
    · split at h
      · rw [mem_foldl_setAdd, mem_forRange] at h
        rcases h with h | ⟨h1, h2⟩
        · exact Or.inl h
        · right; omega
      · exact Or.inl h
    · split at h
      · split at h
        · rename_i hr
          rw [mem_setAdd] at h
          rcases h with h | rfl
          · exact Or.inl h
          · exact Or.inr ⟨hr.1, hr.2⟩
        · exact Or.inl h
      · exact Or.inl h

theorem foldl_parsePart_mem (T : Int) (parts : List (List Char)) (pages : List Int) (p : Int)
    (h : p ∈ parts.foldl (parsePart T) pages) : p ∈ pages ∨ (1 ≤ p ∧ p ≤ T) := by
  induction parts generalizing pages with
  | nil => exact Or.inl h
  | cons part rest ih =>
    rcases ih _ h with h | h
    · exact parsePart_mem T pages part p h
    · exact Or.inr h

theorem parsePageRange_mem (input : List Char) (T : Int) (p : Int)
    (h : p ∈ parsePageRange input T) : 1 ≤ p ∧ p ≤ T := by
  unfold parsePageRange at h
  rw [mem_sortAscending] at h
  rcases foldl_parsePart_mem T _ [] p h with h | h
  · simp at h
  · exact h

theorem updateSlot_inRange (pdfs : List Slot) (i : Nat) (f : Slot → Slot)
    (h : ∀ pdf ∈ pdfs, ∀ p ∈ pdf.selectedPages, 1 ≤ p ∧ p ≤ pdf.totalPages)
    (hf : ∀ pdf, pdfs[i]? = some pdf →
      ∀ p ∈ (f pdf).selectedPages, 1 ≤ p ∧ p ≤ (f pdf).totalPages) :
    ∀ pdf ∈ updateSlot pdfs i f, ∀ p ∈ pdf.selectedPages, 1 ≤ p ∧ p ≤ pdf.totalPages := by
  unfold updateSlot
  cases hi : pdfs[i]? with
  | none => simpa using h
  | some x =>
    intro pdf hpdf
    rcases List.mem_or_eq_of_mem_set hpdf with hm | rfl
    · exact h pdf hm
    · exact hf x hi

theorem handleFile_state (s : State) (file : File) (id : Int) :
    (handleFile s file id).1 = s ∨
    ∃ doc, file.decoded = some doc ∧
      (handleFile s file id).1 =
        { s with pdfs :=
                   updateSlot s.pdfs (findIndex s.pdfs id).toNat (storeDocument file doc) } := by
  unfold handleFile
  simp only
  split
  · exact Or.inl rfl
  · split
    · exact Or.inl rfl
    · split
      · exact Or.inl rfl
      · split
        · exact Or.inl rfl
        · rename_i doc hdoc
          right
          refine ⟨doc, hdoc, ?_⟩
          split <;> rfl

theorem apply_inRange (s : State) (a : Action) (hs : SelectionInRange s)
    (ha : a.offered s = true) : SelectionInRange (a.apply s) := by
  unfold SelectionInRange at *
  cases a with
  | addPDFSlot =>
    intro pdf hpdf
    simp only [Action.apply, addPDFSlot, List.mem_append, List.mem_singleton] at hpdf
    rcases hpdf with h | rfl
    · exact hs pdf h
    · intro p hp; simp at hp
  | handleFile file id =>
    rcases handleFile_state s file id with h | ⟨doc, _, h⟩
    · simp only [Action.apply, h]; exact hs
    · simp only [Action.apply, h]
      apply updateSlot_inRange _ _ _ hs
      intro pdf _ p hp
      simp only [storeDocument, mem_foldl_setAdd, mem_forRange, List.not_mem_nil,
        false_or] at hp
      exact hp
  | togglePageSelection id pageNum =>
    simp only [Action.offered, Bool.and_eq_true, decide_eq_true_eq] at ha
    simp only [Action.apply, togglePageSelection, ha.1, if_false]
    apply updateSlot_inRange _ _ _ hs
    intro pdf hpdf p hp
    have hpdf' := List.getElem?_mem hpdf
    rw [hpdf] at ha
    simp only [Bool.and_eq_true, decide_eq_true_eq] at ha
    by_cases hmem : pageNum ∈ pdf.selectedPages
    · simp only [hmem, if_true] at hp ⊢
      exact hs pdf hpdf' p (List.mem_of_mem_erase hp)
    · simp only [hmem, if_false, mem_setAdd] at hp ⊢
      rcases hp with hp | rfl
      · exact hs pdf hpdf' p hp
      · exact ha.2
  | handlePageRangeInput input id =>
    simp only [Action.apply, handlePageRangeInput]
    split
    · exact hs
    · apply updateSlot_inRange _ _ _ hs
      intro pdf _ p hp
      simp only [mem_foldl_setAdd, List.not_mem_nil, false_or] at hp
      exact parsePageRange_mem _ _ _ hp
  | selectAllPages id =>
    simp only [Action.apply, selectAllPages]
    split
    · exact hs
    · apply updateSlot_inRange _ _ _ hs
      intro pdf _ p hp
      simp only [mem_foldl_setAdd, mem_forRange, List.not_mem_nil, false_or] at hp
      exact hp
  | deselectAllPages id =>
    simp only [Action.apply, deselectAllPages]
    split
    · exact hs
    · apply updateSlot_inRange _ _ _ hs
      intro pdf _ p hp
      simp at hp
  | removePDF id =>
    simp only [Action.apply, removePDF]
    split
    · exact hs
    · split
      · exact hs
      · intro pdf hpdf
        exact hs pdf (List.mem_of_mem_eraseIdx hpdf)
  | movePDFUp id =>
    simp only [Action.apply, movePDFUp]
    split
    · exact hs
    · intro pdf hpdf
      simp only [swapSlots] at hpdf
      split at hpdf
      · rename_i x y hx hy
        rcases List.mem_or_eq_of_mem_set hpdf with hm | rfl
        · rcases List.mem_or_eq_of_mem_set hm with hm | rfl
          · exact hs pdf hm
          · exact hs _ (List.getElem?_mem hx)
        · exact hs _ (List.getElem?_mem hy)
      · exact hs pdf hpdf
  | movePDFDown id =>
    simp only [Action.apply, movePDFDown]
    split
    · exact hs
    · intro pdf hpdf
      simp only [swapSlots] at hpdf
      split at hpdf
      · rename_i x y hx hy
        rcases List.mem_or_eq_of_mem_set hpdf with hm | rfl
        · rcases List.mem_or_eq_of_mem_set hm with hm | rfl
          · exact hs pdf hm
          · exact hs _ (List.getElem?_mem hx)
        · exact hs _ (List.getElem?_mem hy)
      · exact hs pdf hpdf

theorem run_inRange (actions : List Action) (s0 s : State) (h0 : SelectionInRange s0)
    (h : run s0 actions = some s) : SelectionInRange s := by
  induction actions generalizing s0 with
  | nil =>
    simp only [run, Option.some.injEq] at h
    exact h ▸ h0
  | cons a rest ih =>
    simp only [run] at h
    split at h
    · rename_i ha
      exact ih _ (apply_inRange s0 a h0 ha) h
    · simp at h

theorem handleFile_success (s : State) (file : File) (id : Int) (doc : PdfDoc)
    (hslot : ∃ x ∈ s.pdfs, x.id = id) (hdoc : file.decoded = some doc)
    (hok : (handleFile s file id).2 = none) :
    ∃ (i : Nat) (old new : Slot), findIndex s.pdfs id = (i : Int) ∧
      s.pdfs[i]? = some old ∧ old.id = id ∧
      (handleFile s file id).1.pdfs = s.pdfs.set i new ∧
      new.id = id ∧ new.file = some file ∧ new.pdfDoc = some doc ∧
      new.totalPages = doc.numPages ∧ new.selectedPages.Nodup ∧
      ∀ p, p ∈ new.selectedPages ↔ 1 ≤ p ∧ p ≤ doc.numPages := by
  rcases hslot with ⟨x, hx, hxid⟩
  rcases findIndex_spec s.pdfs id with ⟨_, h2⟩ | ⟨i, hi, h1, ⟨y, hy, hyid⟩, _⟩
  · exact absurd hxid (h2 x hx)
  · have hne : findIndex s.pdfs id ≠ -1 := by rw [h1]; omega
    refine ⟨i, y, storeDocument file doc y, h1, hy, hyid, ?_, hyid, rfl, rfl, rfl,
      nodup_foldl_setAdd _ _ List.nodup_nil, ?_⟩
    · unfold handleFile at hok ⊢
      simp only [hne, if_false, hdoc] at hok ⊢
      by_cases hsize : file.size > 50 * 1024 * 1024
      · simp [hsize] at hok
      · by_cases hread : (!file.readable) = true
        · simp [hsize, hread] at hok
        · simp only [Bool.not_eq_true, Bool.not_eq_false] at hread
          simp only [hsize, hread, Bool.not_true, Bool.false_eq_true, if_false, updateSlot,
            h1, Int.toNat_ofNat, hy]
          split <;> rfl
    · intro p
      simp [storeDocument, mem_foldl_setAdd, mem_forRange]

/-- Claim C9. In every state reached from the two initial empty slots by actions
of the page (adding a slot, loading a file, clicking the thumbnail of a page
between 1 and the slot's page count, editing the range text to any string, select
all, clear, remove, move up, move down), each selected page of each slot lies
between 1 and that slot's page count; and a load that succeeds in such a state
leaves the slot with the page count of the document and the selection exactly
the pages 1 to that count. -/
theorem selection_in_range (actions : List Action) (s : State)
    (h : run init actions = some s) :
    SelectionInRange s ∧
    ∀ (file : File) (id : Int) (doc : PdfDoc),
      (∃ x ∈ s.pdfs, x.id = id) → file.decoded = some doc →
      (handleFile s file id).2 = none →
      ∃ (i : Nat) (old new : Slot), findIndex s.pdfs id = (i : Int) ∧
        s.pdfs[i]? = some old ∧ old.id = id ∧
        (handleFile s file id).1.pdfs = s.pdfs.set i new ∧
        new.id = id ∧ new.file = some file ∧ new.pdfDoc = some doc ∧
        new.totalPages = doc.numPages ∧ new.selectedPages.Nodup ∧
        ∀ p, p ∈ new.selectedPages ↔ 1 ≤ p ∧ p ≤ doc.numPages := by
  refine ⟨run_inRange actions init s ?_ h, fun file id doc h1 h2 h3 =>
    handleFile_success s file id doc h1 h2 h3⟩
  intro pdf hpdf p hp
  simp only [init, addPDFSlot, List.nil_append, List.cons_append, List.mem_cons,
    List.mem_singleton, List.not_mem_nil, or_false] at hpdf
  rcases hpdf with rfl | rfl <;> simp at hp


/-! ## Splitting and the parts of a range text -/

theorem split_ne_nil (sep : Char) (s : List Char) : split sep s ≠ [] := by
  induction s with
  | nil => simp [split]
  | cons c cs ih =>
    unfold split
    split
    · simp
    · split <;> simp

theorem split_of_not_mem (sep : Char) (s : List Char) (h : sep ∉ s) : split sep s = [s] := by
  induction s with
  | nil => rfl
  | cons c cs ih =>
    have hc : c ≠ sep := fun e => h (by simp [e])
    have hcs : sep ∉ cs := fun e => h (List.mem_cons_of_mem _ e)
    unfold split
    rw [if_neg hc, ih hcs]

theorem split_cons_sep (sep : Char) (cs : List Char) :
    split sep (sep :: cs) = [] :: split sep cs := by
  rw [split, if_pos rfl]

theorem split_cons_ne (sep c : Char) (cs p : List Char) (ps : List (List Char))
    (hc : c ≠ sep) (hs : split sep cs = p :: ps) :
    split sep (c :: cs) = (c :: p) :: ps := by
  rw [split, if_neg hc, hs]

theorem split_append_sep (sep : Char) (x r : List Char) :
    split sep (x ++ sep :: r) = split sep x ++ split sep r := by
  induction x with
  | nil => rw [List.nil_append, split_cons_sep]; rfl
  | cons c cs ih =>
    rw [List.cons_append]
    by_cases hc : c = sep
    · subst hc
      rw [split_cons_sep, split_cons_sep, ih, List.cons_append]
    · cases hs : split sep cs with
      | nil => exact absurd hs (split_ne_nil sep cs)
      | cons p ps =>
        rw [split_cons_ne sep c cs p ps hc hs,
          split_cons_ne sep c (cs ++ sep :: r) p (ps ++ split sep r) hc (by rw [ih, hs]; rfl)]
        rfl

theorem parsePart_space (T : Int) (pages : List Int) (s : List Char) :
    parsePart T pages (' ' :: s) = parsePart T pages s := by
  unfold parsePart
  rw [trim_space_cons]

theorem not_mem_numToString (n : Int) (h : 0 ≤ n) (d : Char) (hd : isDecDigit d = false) :
    d ∉ numToString n := by
  intro hm
  have := (numToString_nonneg n h).2.1 d hm
  rw [this] at hd
  exact Bool.noConfusion hd

theorem numToString_ws (n : Int) (h : 0 ≤ n) : ∀ c ∈ numToString n, isWhiteSpace c = false :=
  fun c hc => isWhiteSpace_of_digit c ((numToString_nonneg n h).2.1 c hc)

theorem parsePart_hyphen (T : Int) (pages : List Int) (a b : Int) (ha : 0 ≤ a) (hb : 0 ≤ b) :
    parsePart T pages (numToString a ++ '-' :: numToString b) =
      (forRange (max 1 a) (min T b)).foldl setAdd pages := by
  have hws : ∀ c ∈ numToString a ++ '-' :: numToString b, isWhiteSpace c = false := by
    intro c hc
    rcases List.mem_append.mp hc with hc | hc
    · exact numToString_ws a ha c hc
    · rcases List.mem_cons.mp hc with rfl | hc
      · decide
      · exact numToString_ws b hb c hc
  have hsplit : split '-' (numToString a ++ '-' :: numToString b) =
      [numToString a, numToString b] := by
    rw [split_append_sep, split_of_not_mem _ _ (not_mem_numToString a ha '-' (by decide)),
      split_of_not_mem _ _ (not_mem_numToString b hb '-' (by decide))]
    rfl
  have hne : (numToString a ++ '-' :: numToString b).isEmpty = false := by
    cases numToString a <;> rfl
  unfold parsePart
  rw [trim_of_all _ hws]
  simp only [hne, Bool.false_eq_true, if_false, List.mem_append, List.mem_cons, true_or,
    or_true, if_true, hsplit, List.map_cons, List.map_nil,
    trim_of_all _ (numToString_ws a ha), trim_of_all _ (numToString_ws b hb),
    parseInt_numToString a ha, parseInt_numToString b hb]

theorem parsePart_single (T : Int) (pages : List Int) (a : Int) (ha : 0 ≤ a) :
    parsePart T pages (numToString a) =
      if a ≥ 1 ∧ a ≤ T then setAdd pages a else pages := by
  have hne : (numToString a).isEmpty = false := by
    have := (numToString_nonneg a ha).1
    cases h : numToString a with
    | nil => exact absurd h this
    | cons c cs => rfl
  unfold parsePart
  rw [trim_of_all _ (numToString_ws a ha)]
  simp only [hne, Bool.false_eq_true, if_false,
    not_mem_numToString a ha '-' (by decide), parseInt_numToString a ha]

theorem nodup_parsePart (T : Int) (pages : List Int) (part : List Char) (h : pages.Nodup) :
    (parsePart T pages part).Nodup := by
  unfold parsePart
  simp only
  split
  · exact h
  · split
    · split
      · exact nodup_foldl_setAdd _ _ h
      · exact h
    · split
      · split
        · exact nodup_setAdd _ _ h
        · exact h
      · exact h

theorem nodup_foldl_parsePart (T : Int) (parts : List (List Char)) (pages : List Int)
    (h : pages.Nodup) : (parts.foldl (parsePart T) pages).Nodup := by
  induction parts generalizing pages with
  | nil => exact h
  | cons part rest ih => exact ih _ (nodup_parsePart T pages part h)

theorem sortAscending_strict (l : List Int) (h : l.Nodup) :
    (sortAscending l).Sorted (· < ·) :=
  (sortAscending_sorted l).lt_of_le ((sortAscending_perm l).nodup_iff.mpr h)

theorem parsePageRange_sorted (input : List Char) (T : Int) :
    (parsePageRange input T).Sorted (· < ·) :=
  sortAscending_strict _ (nodup_foldl_parsePart T _ [] List.nodup_nil)

/-- Claim C4. For natural numbers `a`, `b`, `T`, parsing the single segment
"a-b" (both written in decimal) against `T` pages returns, in ascending order and
once each, exactly the integers `i` with `max 1 a ≤ i ≤ min T b`; so it returns no
page when `a > b`, and "2-1" gives no page for any `T`. -/
theorem parsePageRange_range_segment (a b T : Nat) :
    (parsePageRange (numToString a ++ '-' :: numToString b) T).Sorted (· < ·) ∧
    (∀ i : Int, i ∈ parsePageRange (numToString a ++ '-' :: numToString b) T ↔
      max 1 (a : Int) ≤ i ∧ i ≤ min (T : Int) b) ∧
    (b < a → parsePageRange (numToString a ++ '-' :: numToString b) T = []) ∧
    parsePageRange "2-1".toList T = [] := by
  have hmem : ∀ (a b : Nat) (i : Int),
      i ∈ parsePageRange (numToString a ++ '-' :: numToString b) T ↔
        max 1 (a : Int) ≤ i ∧ i ≤ min (T : Int) b := by
    intro a b i
    have hcomma : ',' ∉ numToString (a : Int) ++ '-' :: numToString (b : Int) := by
      intro hc
      rcases List.mem_append.mp hc with hc | hc
      · exact not_mem_numToString a (by omega) ',' (by decide) hc
      · rcases List.mem_cons.mp hc with hc | hc
        · exact absurd hc (by decide)
        · exact not_mem_numToString b (by omega) ',' (by decide) hc
    unfold parsePageRange
    simp only [split_of_not_mem _ _ hcomma, List.foldl_cons, List.foldl_nil,
      parsePart_hyphen T [] a b (by omega) (by omega), mem_sortAscending, mem_foldl_setAdd,
      mem_forRange, List.not_mem_nil, false_or]
  have hempty : ∀ (a b : Nat), b < a →
      parsePageRange (numToString a ++ '-' :: numToString b) T = [] := by
    intro a b hab
    apply List.eq_nil_iff_forall_not_mem.mpr
    intro i hi
    rw [hmem] at hi
    omega
  refine ⟨parsePageRange_sorted _ _, hmem a b, hempty a b, ?_⟩
  have := hempty 2 1 (by omega)
  have e : numToString ((2 : Nat) : Int) ++ '-' :: numToString ((1 : Nat) : Int) = "2-1".toList := by
    decide
  rw [e] at this
  exact this


theorem parsePageRange_range_segment_witness :
    parsePageRange (numToString ((3 : Nat) : Int) ++ '-' :: numToString ((1 : Nat) : Int))
      ((5 : Nat) : Int) = [] :=
  (parsePageRange_range_segment 3 1 5).2.2.1 (by decide)

/-! ## Segments that contribute nothing -/

theorem isDecDigit_of_isRadixDigit (c : Char) (h : isRadixDigit 10 c = true) :
    isDecDigit c = true := by
  unfold isRadixDigit digitValue at h
  rw [isDecDigit_iff]
  by_cases h1 : 48 ≤ c.toNat ∧ c.toNat ≤ 57
  · exact h1
  · simp only [h1, if_false] at h
    by_cases h2 : 97 ≤ c.toNat ∧ c.toNat ≤ 122
    · simp only [h2, and_self, if_true, decide_eq_true_eq] at h
      omega
    · simp only [h2, if_false] at h
      by_cases h3 : 65 ≤ c.toNat ∧ c.toNat ≤ 90
      · simp only [h3, and_self, if_true, decide_eq_true_eq] at h
        omega
      · simp [h3] at h

theorem takeWhile_digits_nil (S : List Char)
    (h : ∀ c cs, S = c :: cs → isDecDigit c = false) :
    ((match S with
      | '0' :: 'x' :: r => ((16 : Nat), r)
      | '0' :: 'X' :: r => (16, r)
      | _ => (10, S)).2.takeWhile
      (isRadixDigit (match S with
      | '0' :: 'x' :: r => ((16 : Nat), r)
      | '0' :: 'X' :: r => (16, r)
      | _ => (10, S)).1)) = [] := by
  split
  · rename_i r
    exact absurd (h '0' _ rfl) (by decide)
  · rename_i r
    exact absurd (h '0' _ rfl) (by decide)
  · cases S with
    | nil => rfl
    | cons c cs =>
      have hc := h c cs rfl
      have : isRadixDigit 10 c = false := by
        cases hr : isRadixDigit 10 c with
        | false => rfl
        | true => rw [isDecDigit_of_isRadixDigit c hr] at hc; exact Bool.noConfusion hc
      simp [List.takeWhile, this]

theorem parseInt_eq_none (s : List Char) (h : readsInteger s = false) : parseInt s = none := by
  unfold readsInteger at h
  unfold parseInt
  generalize trimStart s = t at h
  have hS : ∀ c cs, (match t with
      | '+' :: r => r
      | '-' :: r => r
      | _ => t) = c :: cs → isDecDigit c = false := by
    intro c cs hc
    split at hc
    · subst hc; simpa using h
    · subst hc; simpa using h
    · rename_i h1 h2
      subst hc
      split at h
      · rename_i heq; exact (h1 _ heq).elim
      · rename_i heq; exact (h2 _ heq).elim
      · rename_i heq
        injection heq with heq _
        subst heq
        exact h
      · rename_i heq
        exact List.noConfusion heq
  simp only [takeWhile_digits_nil _ hS, List.isEmpty_nil, if_true]

theorem parsePart_unreadable (T : Int) (pages : List Int) (m : List Char)
    (h : unreadableSegment m = true) : parsePart T pages m = pages := by
  unfold unreadableSegment at h
  unfold parsePart
  simp only [Bool.and_eq_true, Bool.not_eq_true'] at h
  obtain ⟨h1, h2⟩ := h
  simp only [h1, Bool.false_eq_true, if_false]
  by_cases hh : '-' ∈ trim m
  · simp only [hh, if_true] at h2 ⊢
    cases hs : split '-' (trim m) with
    | nil => rfl
    | cons a rest =>
      cases rest with
      | nil =>
        simp only [List.map_cons, List.map_nil]
        split
        · rename_i heq
          simp at heq
        · rfl
      | cons b rest' =>
        rw [hs] at h2
        simp only [Bool.or_eq_true, Bool.not_eq_true'] at h2
        rcases h2 with h2 | h2
        · simp only [List.map_cons, parseInt_eq_none _ h2]
        · simp only [List.map_cons, parseInt_eq_none _ h2]
          split
          · rename_i heq
            injection heq with _ heq
            injection heq with heq _
            exact Option.noConfusion heq
          · rfl
  · simp only [hh, if_false, Bool.not_eq_true'] at h2 ⊢
    rw [parseInt_eq_none _ h2]

/-- Claim C5 as stated fails: "2abc" is malformed in the strict sense, yet between
"1" and "3" it still selects page 2. -/
theorem malformed_segment_not_dropped :
    ',' ∉ "2abc".toList ∧ malformedSegment "2abc".toList = true ∧
    parsePageRange ("1".toList ++ ',' :: ("2abc".toList ++ ',' :: "3".toList)) 5 = [1, 2, 3] ∧
    parsePageRange ("1".toList ++ ',' :: "3".toList) 5 = [1, 3] ∧
    parsePageRange ("1".toList ++ ',' :: ("2abc".toList ++ ',' :: "3".toList)) 5 ≠
      parsePageRange ("1".toList ++ ',' :: "3".toList) 5 := by
  decide

/-- Claim C5, amended. A comma-free segment in which the parser finds no integer
where it looks (`unreadableSegment`) is dropped: with it or without it between
two commas the parsed pages are the same, for every page count and all
surrounding texts; "abc, 2" against 5 pages gives exactly page 2. -/
theorem unreadable_segment_dropped (T : Int) (m x y : List Char) (hc : ',' ∉ m)
    (hm : unreadableSegment m = true) :
    parsePageRange (x ++ ',' :: (m ++ ',' :: y)) T = parsePageRange (x ++ ',' :: y) T ∧
    parsePageRange "abc, 2".toList 5 = [2] := by
  refine ⟨?_, by decide⟩
  unfold parsePageRange
  simp only [split_append_sep, split_of_not_mem ',' m hc, List.foldl_append, List.foldl_cons,
    List.foldl_nil, parsePart_unreadable T _ m hm]

theorem unreadable_segment_dropped_witness :
    parsePageRange ("1".toList ++ ',' :: ("abc".toList ++ ',' :: "3".toList)) 5 =
      parsePageRange ("1".toList ++ ',' :: "3".toList) 5 ∧
    parsePageRange "abc, 2".toList 5 = [2] :=
  unreadable_segment_dropped 5 "abc".toList "1".toList "3".toList (by decide) (by decide)


/-! ## Serialization into runs -/

theorem runText_eq_rangeText (r : Int × Int) : runText r = rangeText r.1 r.2 := by
  unfold runText rangeText
  split <;> simp

theorem collectRanges_eq (rest : List Int) (start end_ : Int) (ranges : List (List Char)) :
    collectRanges rest start end_ ranges = ranges ++ (runsFrom rest start end_).map runText := by
  induction rest generalizing start end_ ranges with
  | nil => simp [collectRanges, runsFrom, runText_eq_rangeText]
  | cons x rest ih =>
    by_cases hx : x = end_ + 1
    · simp only [collectRanges, runsFrom, hx, if_true, ih]
    · simp only [collectRanges, runsFrom, hx, if_false, ih, List.map_cons, runText_eq_rangeText,
        List.append_assoc, List.singleton_append]

theorem runsFrom_le (rest : List Int) (start end_ : Int) (h : start ≤ end_)
    (hc : List.Chain (· < ·) end_ rest) : ∀ r ∈ runsFrom rest start end_, r.1 ≤ r.2 := by
  induction rest generalizing start end_ with
  | nil =>
    intro r hr
    simp only [runsFrom, List.mem_singleton] at hr
    subst hr; exact h
  | cons x rest ih =>
    rw [List.chain_cons] at hc
    intro r hr
    by_cases hx : x = end_ + 1
    · simp only [runsFrom, hx, if_true] at hr
      exact ih start (end_ + 1) (by omega) (hx ▸ hc.2) r hr
    · simp only [runsFrom, hx, if_false, List.mem_cons] at hr
      rcases hr with rfl | hr
      · exact h
      · exact ih x x (le_refl x) hc.2 r hr

theorem runsFrom_chain (rest : List Int) (start end_ : Int) (p : Int × Int)
    (hp : p.2 + 1 < start) (h : start ≤ end_) (hc : List.Chain (· < ·) end_ rest) :
    List.Chain (fun r r' : Int × Int => r.2 + 1 < r'.1) p (runsFrom rest start end_) := by
  induction rest generalizing start end_ p with
  | nil =>
    simp only [runsFrom]
    exact List.Chain.cons hp List.Chain.nil
  | cons x rest ih =>
    rw [List.chain_cons] at hc
    by_cases hx : x = end_ + 1
    · simp only [runsFrom, hx, if_true]
      exact ih start (end_ + 1) p hp (by omega) (hx ▸ hc.2)
    · simp only [runsFrom, hx, if_false]
      refine List.Chain.cons hp ?_
      exact ih x x (start, end_) (by simp only; omega) (le_refl x) hc.2

theorem runsFrom_mem (rest : List Int) (start end_ : Int) (h : start ≤ end_) (x : Int) :
    (∃ r ∈ runsFrom rest start end_, r.1 ≤ x ∧ x ≤ r.2) ↔
      (start ≤ x ∧ x ≤ end_) ∨ x ∈ rest := by
  induction rest generalizing start end_ with
  | nil => simp [runsFrom]
  | cons y rest ih =>
    by_cases hy : y = end_ + 1
    · simp only [runsFrom, hy, if_true, ih start (end_ + 1) (by omega), List.mem_cons]
      constructor
      · rintro (⟨h1, h2⟩ | h1)
        · by_cases hx : x = end_ + 1
          · exact Or.inr (Or.inl hx)
          · exact Or.inl ⟨h1, by omega⟩
        · exact Or.inr (Or.inr h1)
      · rintro (⟨h1, h2⟩ | h1 | h1)
        · exact Or.inl ⟨h1, by omega⟩
        · exact Or.inl ⟨by omega, by omega⟩
        · exact Or.inr h1
    · simp only [runsFrom, hy, if_false]
      constructor
      · rintro ⟨r, hr, h1, h2⟩
        rcases List.mem_cons.mp hr with rfl | hr
        · exact Or.inl ⟨h1, h2⟩
        · rcases (ih y y (le_refl y)).mp ⟨r, hr, h1, h2⟩ with h | h
          · exact Or.inr (List.mem_cons.mpr (Or.inl (by omega)))
          · exact Or.inr (List.mem_cons_of_mem _ h)
      · rintro (h1 | h1)
        · exact ⟨(start, end_), List.mem_cons_self _ _, h1.1, h1.2⟩
        · rcases List.mem_cons.mp h1 with rfl | h1
          · obtain ⟨r, hr, h⟩ := (ih x x (le_refl x)).mpr (Or.inl ⟨le_refl _, le_refl _⟩)
            exact ⟨r, List.mem_cons_of_mem _ hr, h⟩
          · obtain ⟨r, hr, h⟩ := (ih y y (le_refl y)).mpr (Or.inr h1)
            exact ⟨r, List.mem_cons_of_mem _ hr, h⟩

theorem updatePageRangeInput_eq (S : List Int) (hS : S.Nodup) :
    ∃ runs : List (Int × Int), IsRunListOf S runs ∧
      updatePageRangeInput S = join [',', ' '] (runs.map runText) := by
  cases hsort : sortAscending S with
  | nil =>
    have hnil : S = [] := by
      have := (sortAscending_perm S).length_eq
      rw [hsort] at this
      exact List.length_eq_zero.mp this.symm
    subst hnil
    refine ⟨[], ⟨by simp, by simp, by simp⟩, by simp [updatePageRangeInput, join]⟩
  | cons first rest =>
    have hlen : S.length ≠ 0 := by
      have := (sortAscending_perm S).length_eq
      rw [hsort] at this
      simp at this
      omega
    have hsorted : (first :: rest).Sorted (· < ·) := hsort ▸ sortAscending_strict S hS
    have hchain : List.Chain (· < ·) first rest := List.Pairwise.chain hsorted
    refine ⟨runsFrom rest first first, ⟨?_, ?_, ?_⟩, ?_⟩
    · exact runsFrom_le rest first first (le_refl _) hchain
    · have := runsFrom_chain rest first first (first - 2, first - 2) (by simp only; omega)
        (le_refl _) hchain
      exact List.Chain'.tail (l := (first - 2, first - 2) :: runsFrom rest first first) this
    · intro x
      rw [runsFrom_mem rest first first (le_refl _) x, ← mem_sortAscending S x, hsort,
        List.mem_cons]
      constructor
      · rintro (h | h)
        · exact Or.inl ⟨by omega, by omega⟩
        · exact Or.inr h
      · rintro (h | h)
        · exact Or.inl (by omega)
        · exact Or.inr h
    · unfold updatePageRangeInput
      rw [if_neg hlen, hsort]
      simp only [collectRanges_eq, List.nil_append]

/-- Claim C3. For a selection `S` (a set of positive integers), the text written by
`updatePageRangeInput` is empty when `S` is empty; in general it is the maximal
runs of consecutive members of `S` in ascending order, a one-member run written
"n" and a longer run "a-b", joined by a comma and one space. For
{1,2,3,5,7,8,9} it is "1-3, 5, 7-9". -/
theorem updatePageRangeInput_runs (S : List Int) (hS : S.Nodup) (hpos : ∀ x ∈ S, 0 < x) :
    (S = [] → updatePageRangeInput S = []) ∧
    (∃ runs : List (Int × Int), IsRunListOf S runs ∧ (∀ r ∈ runs, 0 < r.1) ∧
      updatePageRangeInput S = join [',', ' '] (runs.map runText)) ∧
    updatePageRangeInput [1, 2, 3, 5, 7, 8, 9] = "1-3, 5, 7-9".toList := by
  refine ⟨?_, ?_, by decide⟩
  · rintro rfl
    rfl
  · obtain ⟨runs, hruns, htext⟩ := updatePageRangeInput_eq S hS
    refine ⟨runs, hruns, ?_, htext⟩
    intro r hr
    exact hpos r.1 ((hruns.2.2 r.1).mpr ⟨r, hr, le_refl _, hruns.1 r hr⟩)

theorem updatePageRangeInput_runs_witness :
    ∃ runs : List (Int × Int), IsRunListOf [9, 1, 3, 2] runs ∧ (∀ r ∈ runs, 0 < r.1) ∧
      updatePageRangeInput [9, 1, 3, 2] = join [',', ' '] (runs.map runText) :=
  (updatePageRangeInput_runs [9, 1, 3, 2] (by decide) (by decide)).2.1


/-! ## Round trip -/

theorem join_cons_cons (sep x y : List Char) (rest : List (List Char)) :
    join sep (x :: y :: rest) = x ++ sep ++ join sep (y :: rest) := by
  rw [join]

theorem foldl_parsePart_split_join (T : Int) (labels : List (List Char))
    (hc : ∀ l ∈ labels, ',' ∉ l) (pages : List Int) :
    (split ',' (join [',', ' '] labels)).foldl (parsePart T) pages =
      labels.foldl (parsePart T) pages := by
  induction labels generalizing pages with
  | nil => rfl
  | cons x rest ih =>
    cases rest with
    | nil =>
      simp only [join, split_of_not_mem ',' x (hc x (by simp))]
    | cons y rest' =>
      have e : join [',', ' '] (x :: y :: rest') =
          x ++ ',' :: (' ' :: join [',', ' '] (y :: rest')) := by
        rw [join_cons_cons]; simp
      have hne := split_ne_nil ',' (join [',', ' '] (y :: rest'))
      cases hs : split ',' (join [',', ' '] (y :: rest')) with
      | nil => exact absurd hs hne
      | cons q qs =>
        have ih' := ih (fun l hl => hc l (List.mem_cons_of_mem _ hl))
        rw [hs] at ih'
        rw [e, split_append_sep, split_of_not_mem ',' x (hc x (by simp)),
          split_cons_ne ',' ' ' _ q qs (by decide) hs]
        simp only [List.singleton_append, List.foldl_cons, parsePart_space]
        simpa only [List.foldl_cons] using ih' (parsePart T pages x)

theorem not_mem_runText (r : Int × Int) (h1 : 0 ≤ r.1) (h2 : 0 ≤ r.2) : ',' ∉ runText r := by
  unfold runText
  split
  · exact not_mem_numToString r.1 h1 ',' (by decide)
  · intro hc
    simp only [List.mem_append, List.mem_singleton] at hc
    rcases hc with (hc | hc) | hc
    · exact not_mem_numToString r.1 h1 ',' (by decide) hc
    · exact absurd hc (by decide)
    · exact not_mem_numToString r.2 h2 ',' (by decide) hc

theorem mem_parsePart_runText (T : Int) (pages : List Int) (r : Int × Int)
    (h1 : 1 ≤ r.1) (h2 : r.1 ≤ r.2) (h3 : r.2 ≤ T) (x : Int) :
    x ∈ parsePart T pages (runText r) ↔ x ∈ pages ∨ (r.1 ≤ x ∧ x ≤ r.2) := by
  unfold runText
  by_cases he : r.1 = r.2
  · rw [if_pos he, parsePart_single T pages r.1 (by omega), if_pos ⟨by omega, by omega⟩,
      mem_setAdd]
    constructor
    · rintro (h | h)
      · exact Or.inl h
      · exact Or.inr ⟨by omega, by omega⟩
    · rintro (h | h)
      · exact Or.inl h
      · exact Or.inr (by omega)
  · rw [if_neg he]
    have e : numToString r.1 ++ ['-'] ++ numToString r.2 =
        numToString r.1 ++ '-' :: numToString r.2 := by simp
    rw [e, parsePart_hyphen T pages r.1 r.2 (by omega) (by omega), mem_foldl_setAdd,
      mem_forRange]
    constructor
    · rintro (h | h)
      · exact Or.inl h
      · exact Or.inr ⟨by omega, by omega⟩
    · rintro (h | h)
      · exact Or.inl h
      · exact Or.inr ⟨by omega, by omega⟩

theorem mem_foldl_parsePart_runs (T : Int) (runs : List (Int × Int))
    (h : ∀ r ∈ runs, 1 ≤ r.1 ∧ r.1 ≤ r.2 ∧ r.2 ≤ T) (pages : List Int) (x : Int) :
    x ∈ (runs.map runText).foldl (parsePart T) pages ↔
      x ∈ pages ∨ ∃ r ∈ runs, r.1 ≤ x ∧ x ≤ r.2 := by
  induction runs generalizing pages with
  | nil => simp
  | cons r rest ih =>
    obtain ⟨h1, h2, h3⟩ := h r (by simp)
    simp only [List.map_cons, List.foldl_cons,
      ih (fun r' hr' => h r' (List.mem_cons_of_mem _ hr')),
      mem_parsePart_runText T pages r h1 h2 h3 x, List.exists_mem_cons_iff]
    tauto

/-- Claim C1. For every page count `T` and every selection `S` (a set) inside
`[1, T]`, parsing against `T` the text that `updatePageRangeInput` writes for `S`
returns exactly the members of `S`, each once, in ascending order; the empty
selection is written as the empty text, which parses to no page. -/
theorem parse_serialize_roundtrip (T : Int) (S : List Int) (hS : S.Nodup)
    (hr : ∀ x ∈ S, 1 ≤ x ∧ x ≤ T) :
    (parsePageRange (updatePageRangeInput S) T).Sorted (· < ·) ∧
    (∀ x : Int, x ∈ parsePageRange (updatePageRangeInput S) T ↔ x ∈ S) ∧
    parsePageRange (updatePageRangeInput S) T = sortAscending S ∧
    updatePageRangeInput [] = [] ∧ parsePageRange [] T = [] := by
  have hmem : ∀ x : Int, x ∈ parsePageRange (updatePageRangeInput S) T ↔ x ∈ S := by
    intro x
    obtain ⟨runs, ⟨hle, _, hcover⟩, htext⟩ := updatePageRangeInput_eq S hS
    have hbound : ∀ r ∈ runs, 1 ≤ r.1 ∧ r.1 ≤ r.2 ∧ r.2 ≤ T := by
      intro r hrm
      have ha := hr r.1 ((hcover r.1).mpr ⟨r, hrm, le_refl _, hle r hrm⟩)
      have hb := hr r.2 ((hcover r.2).mpr ⟨r, hrm, hle r hrm, le_refl _⟩)
      exact ⟨ha.1, hle r hrm, hb.2⟩
    have hcomma : ∀ l ∈ runs.map runText, ',' ∉ l := by
      intro l hl
      obtain ⟨r, hrm, rfl⟩ := List.mem_map.mp hl
      obtain ⟨h1, h2, _⟩ := hbound r hrm
      exact not_mem_runText r (by omega) (by omega)
    rw [htext]
    unfold parsePageRange
    rw [mem_sortAscending, foldl_parsePart_split_join T _ hcomma,
      mem_foldl_parsePart_runs T runs hbound, hcover x]
    simp
  have hsorted := parsePageRange_sorted (updatePageRangeInput S) T
  refine ⟨hsorted, hmem, ?_, rfl, rfl⟩
  apply List.eq_of_perm_of_sorted (r := (· ≤ ·))
  · rw [List.perm_ext_iff_of_nodup hsorted.nodup
      ((sortAscending_perm S).nodup_iff.mpr hS)]
    intro x
    rw [hmem, mem_sortAscending]
  · exact hsorted.le_of_lt
  · exact sortAscending_sorted S

theorem parse_serialize_roundtrip_witness :
    parsePageRange (updatePageRangeInput [9, 1, 3, 2, 5]) 10 = sortAscending [9, 1, 3, 2, 5] ∧
    parsePageRange (updatePageRangeInput [9, 1, 3, 2, 5]) 10 = [1, 2, 3, 5, 9] :=
  ⟨(parse_serialize_roundtrip 10 [9, 1, 3, 2, 5] (by decide) (by decide)).2.2.1, by decide⟩


theorem selection_in_range_witness :
    run init sampleActions = some sampleState ∧ SelectionInRange sampleState :=
  ⟨by decide, (selection_in_range sampleActions sampleState (by decide)).1⟩

end PdfMerger
